import Mathlib

/-!
# Verification of the LRU cache in src/main.cpp

Shallow embedding of the C++ sources:

* class node            → structure node (key, value); the prev/next pointers
  are represented by the node's position in the embedded recency list.
* class double_linked_list → a List Nat of node addresses, head (most recently
  used) first, tail (least recently used) last.  The head/tail sentinel nodes
  of the C++ list are the two ends of the Lean list; the inner nodes are the
  list elements.  Node objects live in an explicit heap (an association list
  from addresses to node records), so pointer aliasing between cacheMap and
  cacheList is represented faithfully: both structures hold addresses into the
  same heap.
* std::unordered_map<int, node*> cacheMap → association list from Int keys to
  Nat addresses (cacheMap.find/operator[]/erase → alistLookup/alistInsert/
  alistErase; the first-occurrence semantics of the alist operations agree
  with map semantics because key lists are kept duplicate-free, which the
  invariant CacheInv records).
* class LRU_CACHE       → structure LRU_CACHE with capacity, cacheMap, heap,
  cacheList and an allocation counter nextAddr that models new returning a
  fresh address.
* null/dangling pointer dereference (undefined behaviour in C++) → get and
  put return Option; none marks an execution that dereferences an invalid
  pointer (in particular remove_last returning nullptr followed by
  lruNode->key in put).
* the comparison cacheMap.size() >= capacity compares a size_t with an int;
  the int is converted to size_t (reduction mod 2^64), modelled by
  size_t_of_int.
-/

/-! ## Association lists (model of std::unordered_map) -/

def alistLookup {α β : Type} [DecidableEq α] (k : α) : List (α × β) → Option β
  | [] => none
  | p :: t => if p.1 = k then some p.2 else alistLookup k t

def alistInsert {α β : Type} [DecidableEq α] (k : α) (v : β) : List (α × β) → List (α × β)
  | [] => [(k, v)]
  | p :: t => if p.1 = k then (k, v) :: t else p :: alistInsert k v t

def alistErase {α β : Type} [DecidableEq α] (k : α) : List (α × β) → List (α × β)
  | [] => []
  | p :: t => if p.1 = k then t else p :: alistErase k t

def alistKeys {α β : Type} (m : List (α × β)) : List α := m.map Prod.fst

/-! ## The data model (src/main.cpp) -/

/-- Model of class node (src/main.cpp lines 6-19): one cached association.
The prev/next pointers are represented by the node's position in the
embedded recency list rather than stored in the record. -/
structure node where
  key : Int
  value : Int
deriving DecidableEq, Repr

/-- A heap of node objects: addresses (allocation order) to node records. -/
abbrev Heap := List (Nat × node)

namespace double_linked_list

/-- Model of double_linked_list::remove_node (lines 33-39): unlink the node
at address a.  A node object occupies exactly one position in the C++ list,
so addresses in the embedded list are distinct (invariant CacheInv) and
erasing the first occurrence removes exactly that node. -/
def remove_node (a : Nat) (l : List Nat) : List Nat := l.erase a

/-- Model of double_linked_list::add_first (lines 41-49): insert right after
the head sentinel, i.e. at the front of the inner list. -/
def add_first (a : Nat) (l : List Nat) : List Nat := a :: l

/-- Model of double_linked_list::move_to_front (lines 51-54). -/
def move_to_front (a : Nat) (l : List Nat) : List Nat := add_first a (remove_node a l)

/-- Model of double_linked_list::remove_last (lines 57-63): if the list is
empty (head->next == tail) return nullptr (none); otherwise unlink and
return the node just before the tail sentinel, i.e. the last inner node. -/
def remove_last (l : List Nat) : Option (Nat × List Nat) :=
  match l.getLast? with
  | none => none
  | some last => some (last, remove_node last l)

end double_linked_list

/-- The C++ comparison cacheMap.size() >= capacity converts the int capacity
to size_t (unsigned 64-bit): reduction modulo 2^64. -/
def size_t_of_int (i : Int) : Nat := (i % (2 ^ 64 : Int)).toNat

/-- Model of class LRU_CACHE (lines 66-120).  cacheMap and cacheList both
refer to node objects through their heap address, modelling the shared
node* pointers. -/
structure LRU_CACHE where
  capacity : Int
  cacheMap : List (Int × Nat)
  heap : Heap
  cacheList : List Nat
  nextAddr : Nat
deriving DecidableEq, Repr

/-- Model of the constructor LRU_CACHE::LRU_CACHE (lines 72-74): it stores
the capacity unchecked; the map and the list start empty (sentinels only). -/
def LRU_CACHE.construct (cap : Int) : LRU_CACHE :=
  { capacity := cap, cacheMap := [], heap := [], cacheList := [], nextAddr := 0 }

/-- Model of LRU_CACHE::get (lines 76-89).  none models an execution that
dereferences an invalid node pointer (impossible from reachable states). -/
def LRU_CACHE.get (c : LRU_CACHE) (key : Int) : Option (Int × LRU_CACHE) :=
  match alistLookup key c.cacheMap with
  | none => some (-1, c)
  | some addr =>
    match alistLookup addr c.heap with
    | none => none
    | some nd =>
      some (nd.value,
        { c with cacheList := double_linked_list.move_to_front addr c.cacheList })

/-- Lines 112-117 of LRU_CACHE::put: new node(key, value) at a fresh address,
add_first into the list, cacheMap[key] = newNode. -/
def LRU_CACHE.insert_new (key value : Int) (c : LRU_CACHE) : LRU_CACHE :=
  { c with
    heap := alistInsert c.nextAddr { key := key, value := value } c.heap,
    cacheList := double_linked_list.add_first c.nextAddr c.cacheList,
    cacheMap := alistInsert key c.nextAddr c.cacheMap,
    nextAddr := c.nextAddr + 1 }

/-- Model of LRU_CACHE::put (lines 91-119).  none models a null or dangling
pointer dereference: when remove_last returns nullptr the C++ code reads
lruNode->key, which is undefined behaviour. -/
def LRU_CACHE.put (c : LRU_CACHE) (key value : Int) : Option LRU_CACHE :=
  match alistLookup key c.cacheMap with
  | some addr =>
    match alistLookup addr c.heap with
    | none => none
    | some nd =>
      some { c with
        heap := alistInsert addr { key := nd.key, value := value } c.heap,
        cacheList := double_linked_list.move_to_front addr c.cacheList }
  | none =>
    if size_t_of_int c.capacity ≤ c.cacheMap.length then
      match double_linked_list.remove_last c.cacheList with
      | none => none
      | some (lruAddr, rest) =>
        match alistLookup lruAddr c.heap with
        | none => none
        | some lruNode =>
          some (LRU_CACHE.insert_new key value
            { c with
              cacheList := rest,
              cacheMap := alistErase lruNode.key c.cacheMap,
              heap := alistErase lruAddr c.heap })
    else
      some (LRU_CACHE.insert_new key value c)

/-! ## Operation sequences -/

/-- One public cache operation. -/
inductive Op where
  | get (key : Int)
  | put (key value : Int)
deriving DecidableEq, Repr

/-- The key named by an operation. -/
def Op.accessedKey : Op → Int
  | .get k => k
  | .put k _ => k

/-- Run one operation; none propagates undefined behaviour. -/
def applyOp (c : LRU_CACHE) : Op → Option LRU_CACHE
  | .get k => (c.get k).map Prod.snd
  | .put k v => c.put k v

/-- Run a sequence of operations from a state. -/
def runOps : LRU_CACHE → List Op → Option LRU_CACHE
  | c, [] => some c
  | c, op :: rest =>
    match applyOp c op with
    | none => none
    | some c' => runOps c' rest

/-- The keys of the nodes linked in the recency list, most recent first. -/
def listKeys (c : LRU_CACHE) : List Int :=
  c.cacheList.filterMap (fun a => (alistLookup a c.heap).map node.key)

/-- Key K sits strictly closer to the most-recently-used end than key J:
both are mapped by the index and K's node comes before J's node in the
recency list. -/
def keyOrderBefore (c : LRU_CACHE) (K J : Int) : Prop :=
  ∃ aK aJ : Nat,
    alistLookup K c.cacheMap = some aK ∧
    alistLookup J c.cacheMap = some aJ ∧
    [aK, aJ].Sublist c.cacheList

/-- Concrete state reached by put(1,10); put(2,20) on a capacity-2 cache
(the first two steps of the source's own demonstration driver). -/
def sampleFull : LRU_CACHE :=
  { capacity := 2, cacheMap := [(1, 0), (2, 1)],
    heap := [(0, { key := 1, value := 10 }), (1, { key := 2, value := 20 })],
    cacheList := [1, 0], nextAddr := 2 }

/-- sampleFull after get(1): node 0 moved to the front. -/
def sampleFront : LRU_CACHE :=
  { capacity := 2, cacheMap := [(1, 0), (2, 1)],
    heap := [(0, { key := 1, value := 10 }), (1, { key := 2, value := 20 })],
    cacheList := [0, 1], nextAddr := 2 }

/-- sampleFront after put(3,30): key 2 evicted, key 3 inserted. -/
def sampleAfterEvict : LRU_CACHE :=
  { capacity := 2, cacheMap := [(1, 0), (3, 2)],
    heap := [(0, { key := 1, value := 10 }), (2, { key := 3, value := 30 })],
    cacheList := [2, 0], nextAddr := 3 }

/-- Concrete full state of a capacity-1 cache after put(5,7). -/
def sampleOne : LRU_CACHE :=
  { capacity := 1, cacheMap := [(5, 0)],
    heap := [(0, { key := 5, value := 7 })], cacheList := [0], nextAddr := 1 }

/-- Result of put(4,-1) on a fresh capacity-2 cache. -/
def sampleMinus : LRU_CACHE :=
  { capacity := 2, cacheMap := [(4, 0)],
    heap := [(0, { key := 4, value := -1 })], cacheList := [0], nextAddr := 1 }

/-- The mutual-consistency invariant of a cache state: both node-owning
structures are duplicate-free, every address in the recency list is a live
node, the index maps exactly the keys of the live nodes to the addresses of
their own nodes, allocation addresses are fresh, and the size of the index,
the size of the recency list and the capacity bound agree.  It holds in
every state reachable from a freshly constructed cache. -/
structure CacheInv (c : LRU_CACHE) : Prop where
  list_nodup : c.cacheList.Nodup
  map_keys_nodup : (alistKeys c.cacheMap).Nodup
  heap_keys_nodup : (alistKeys c.heap).Nodup
  fresh : ∀ a ∈ alistKeys c.heap, a < c.nextAddr
  mem_iff : ∀ a : Nat, a ∈ c.cacheList ↔ a ∈ alistKeys c.heap
  map_heap : ∀ (k : Int) (a : Nat),
    alistLookup k c.cacheMap = some a ↔
      ∃ v : Int, alistLookup a c.heap = some { key := k, value := v }
  len_eq : c.cacheMap.length = c.cacheList.length
  len_le : c.cacheMap.length ≤ size_t_of_int c.capacity

/-! ## Lemmas -/

@[simp] theorem alistKeys_nil {α β : Type} : alistKeys ([] : List (α × β)) = [] := rfl

@[simp] theorem alistKeys_cons {α β : Type} (p : α × β) (t : List (α × β)) :
    alistKeys (p :: t) = p.1 :: alistKeys t := rfl

theorem alistLookup_eq_none_iff {α β : Type} [DecidableEq α] (k : α) (m : List (α × β)) :
    alistLookup k m = none ↔ k ∉ alistKeys m := by
  induction m with
  | nil => simp [alistLookup]
  | cons p t ih =>
    by_cases h : p.1 = k
    · have hmem : k ∈ alistKeys (p :: t) := by
        rw [alistKeys_cons, h]
        exact List.mem_cons_self k (alistKeys t)
      simp [alistLookup, h, hmem]
    · have hstep : alistLookup k (p :: t) = alistLookup k t := by
        simp [alistLookup, h]
      rw [hstep, ih, alistKeys_cons, List.mem_cons]
      constructor
      · intro hn hc
        rcases hc with hc | hc
        · exact h hc.symm
        · exact hn hc
      · intro hn hc
        exact hn (Or.inr hc)

theorem mem_alistKeys_of_lookup {α β : Type} [DecidableEq α] {k : α} {m : List (α × β)} {v : β}
    (h : alistLookup k m = some v) : k ∈ alistKeys m := by
  by_contra hk
  rw [← alistLookup_eq_none_iff] at hk
  rw [h] at hk
  exact Option.noConfusion hk

theorem alistLookup_isSome_of_mem {α β : Type} [DecidableEq α] {k : α} {m : List (α × β)}
    (h : k ∈ alistKeys m) : (alistLookup k m).isSome := by
  cases hl : alistLookup k m with
  | none => exact absurd ((alistLookup_eq_none_iff k m).mp hl) (fun hn => hn h)
  | some v => rfl

theorem length_alistKeys {α β : Type} (m : List (α × β)) :
    (alistKeys m).length = m.length := List.length_map m Prod.fst

theorem alistLookup_alistInsert_self {α β : Type} [DecidableEq α] (k : α) (v : β)
    (m : List (α × β)) : alistLookup k (alistInsert k v m) = some v := by
  induction m with
  | nil => simp [alistInsert, alistLookup]
  | cons p t ih =>
    by_cases h : p.1 = k
    · simp [alistInsert, alistLookup, h]
    · simp [alistInsert, alistLookup, h, ih]

theorem alistLookup_alistInsert_ne {α β : Type} [DecidableEq α] {k k' : α} (v : β)
    (m : List (α × β)) (h : k' ≠ k) :
    alistLookup k' (alistInsert k v m) = alistLookup k' m := by
  have hkk' : ¬ (k = k') := fun hh => h hh.symm
  induction m with
  | nil => simp [alistInsert, alistLookup, hkk']
  | cons p t ih =>
    by_cases hp : p.1 = k
    · have hne : ¬ (p.1 = k') := by rw [hp]; exact hkk'
      simp [alistInsert, alistLookup, hp, hkk', hne]
    · by_cases hp' : p.1 = k'
      · simp [alistInsert, alistLookup, hp, hp', h]
      · simp [alistInsert, alistLookup, hp, hp', ih]

theorem alistKeys_alistInsert {α β : Type} [DecidableEq α] (k : α) (v : β) (m : List (α × β)) :
    alistKeys (alistInsert k v m) =
      if k ∈ alistKeys m then alistKeys m else alistKeys m ++ [k] := by
  induction m with
  | nil => simp [alistInsert]
  | cons p t ih =>
    by_cases hp : p.1 = k
    · have hmem : k ∈ alistKeys (p :: t) := by
        rw [alistKeys_cons, hp]
        exact List.mem_cons_self k (alistKeys t)
      simp [alistInsert, hp, hmem]
    · have hkp : ¬ (k = p.1) := fun hh => hp hh.symm
      by_cases ht : k ∈ alistKeys t
      · simp [alistInsert, hp, ih, ht, hkp]
      · simp [alistInsert, hp, ih, ht, hkp]

theorem alistKeys_alistInsert_of_mem {α β : Type} [DecidableEq α] {k : α} (v : β)
    {m : List (α × β)} (h : k ∈ alistKeys m) :
    alistKeys (alistInsert k v m) = alistKeys m := by
  rw [alistKeys_alistInsert, if_pos h]

theorem alistKeys_alistInsert_of_not_mem {α β : Type} [DecidableEq α] {k : α} (v : β)
    {m : List (α × β)} (h : k ∉ alistKeys m) :
    alistKeys (alistInsert k v m) = alistKeys m ++ [k] := by
  rw [alistKeys_alistInsert, if_neg h]

theorem length_alistInsert_of_mem {α β : Type} [DecidableEq α] {k : α} (v : β)
    {m : List (α × β)} (h : k ∈ alistKeys m) :
    (alistInsert k v m).length = m.length := by
  have heq := alistKeys_alistInsert_of_mem v h
  have h1 := length_alistKeys (alistInsert k v m)
  have h2 := length_alistKeys m
  rw [heq] at h1
  omega

theorem length_alistInsert_of_not_mem {α β : Type} [DecidableEq α] {k : α} (v : β)
    {m : List (α × β)} (h : k ∉ alistKeys m) :
    (alistInsert k v m).length = m.length + 1 := by
  have heq := alistKeys_alistInsert_of_not_mem v h
  have h1 := length_alistKeys (alistInsert k v m)
  have h2 := length_alistKeys m
  rw [heq] at h1
  simp at h1
  omega

theorem alistKeys_alistErase {α β : Type} [DecidableEq α] (k : α) (m : List (α × β)) :
    alistKeys (alistErase k m) = (alistKeys m).erase k := by
  induction m with
  | nil => simp [alistErase]
  | cons p t ih =>
    by_cases hp : p.1 = k
    · rw [alistKeys_cons, hp]
      simp [alistErase, hp, List.erase_cons_head]
    · rw [alistKeys_cons, List.erase_cons_tail]
      · have hstep : alistErase k (p :: t) = p :: alistErase k t := by
          simp [alistErase, hp]
        rw [hstep, alistKeys_cons, ih]
      · simpa using hp

theorem alistLookup_alistErase_ne {α β : Type} [DecidableEq α] {k k' : α}
    (m : List (α × β)) (h : k' ≠ k) :
    alistLookup k' (alistErase k m) = alistLookup k' m := by
  have hkk' : ¬ (k = k') := fun hh => h hh.symm
  induction m with
  | nil => simp [alistErase]
  | cons p t ih =>
    by_cases hp : p.1 = k
    · have hne : ¬ (p.1 = k') := by rw [hp]; exact hkk'
      simp [alistErase, alistLookup, hp, hne, hkk']
    · by_cases hp' : p.1 = k'
      · simp [alistErase, alistLookup, hp, hp', h]
      · simp [alistErase, alistLookup, hp, hp', ih]

theorem alistLookup_alistErase_self {α β : Type} [DecidableEq α] (k : α)
    {m : List (α × β)} (h : (alistKeys m).Nodup) :
    alistLookup k (alistErase k m) = none := by
  induction m with
  | nil => simp [alistErase, alistLookup]
  | cons p t ih =>
    rw [alistKeys_cons, List.nodup_cons] at h
    by_cases hp : p.1 = k
    · rw [alistLookup_eq_none_iff]
      have hstep : alistErase k (p :: t) = t := by
        simp [alistErase, hp]
      rw [hstep, ← hp]
      exact h.1
    · have hstep : alistErase k (p :: t) = p :: alistErase k t := by
        simp [alistErase, hp]
      rw [hstep]
      simp [alistLookup, hp]
      exact ih h.2

theorem length_alistErase_of_mem {α β : Type} [DecidableEq α] {k : α}
    {m : List (α × β)} (h : k ∈ alistKeys m) :
    (alistErase k m).length + 1 = m.length := by
  have hk := alistKeys_alistErase k m
  have h1 := length_alistKeys (alistErase k m)
  have h2 := length_alistKeys m
  rw [hk] at h1
  have h3 := List.length_erase_of_mem h
  have h4 : 0 < (alistKeys m).length := List.length_pos_of_mem h
  omega

/-! ## Recency-list helper lemmas -/

theorem mem_move_to_front {a x : Nat} {l : List Nat} (ha : a ∈ l) :
    x ∈ double_linked_list.move_to_front a l ↔ x ∈ l := by
  unfold double_linked_list.move_to_front double_linked_list.add_first
    double_linked_list.remove_node
  by_cases hx : x = a
  · subst hx
    simp [ha]
  · simp [hx, List.mem_erase_of_ne hx]

theorem length_move_to_front {a : Nat} {l : List Nat} (ha : a ∈ l) :
    (double_linked_list.move_to_front a l).length = l.length := by
  unfold double_linked_list.move_to_front double_linked_list.add_first
    double_linked_list.remove_node
  have h1 := List.length_erase_of_mem ha
  have h2 := List.length_pos_of_mem ha
  simp
  omega

theorem nodup_move_to_front {a : Nat} {l : List Nat} (h : l.Nodup) :
    (double_linked_list.move_to_front a l).Nodup := by
  unfold double_linked_list.move_to_front double_linked_list.add_first
    double_linked_list.remove_node
  refine List.nodup_cons.mpr ⟨?_, h.erase a⟩
  intro hmem
  exact ((h.mem_erase_iff).mp hmem).1 rfl

theorem remove_last_eq_some {l : List Nat} {lruAddr : Nat} {rest : List Nat}
    (h : double_linked_list.remove_last l = some (lruAddr, rest)) :
    l.getLast? = some lruAddr ∧ rest = l.erase lruAddr ∧ lruAddr ∈ l := by
  unfold double_linked_list.remove_last at h
  cases hl : l.getLast? with
  | none => rw [hl] at h; exact Option.noConfusion h
  | some last =>
    rw [hl] at h
    unfold double_linked_list.remove_node at h
    injection h with h
    have h1 : last = lruAddr := congrArg Prod.fst h
    have h2 : l.erase last = rest := congrArg Prod.snd h
    subst h1
    exact ⟨rfl, h2.symm, List.mem_of_mem_getLast? (Option.mem_iff.mpr hl)⟩

theorem remove_last_isSome {l : List Nat} (h : l ≠ []) :
    (double_linked_list.remove_last l).isSome := by
  unfold double_linked_list.remove_last
  cases hl : l.getLast? with
  | none => exact absurd (List.getLast?_eq_none_iff.mp hl) h
  | some last => rfl

/-! ## The cache invariant -/

theorem cacheInv_construct (cap : Int) : CacheInv (LRU_CACHE.construct cap) := by
  constructor <;> simp [LRU_CACHE.construct, alistLookup]

/-- The address an index entry points to is a member of the recency list. -/
theorem addr_mem_list {c : LRU_CACHE} (hInv : CacheInv c) {k : Int} {a : Nat}
    (h : alistLookup k c.cacheMap = some a) : a ∈ c.cacheList := by
  rcases (hInv.map_heap k a).mp h with ⟨v, hv⟩
  exact (hInv.mem_iff a).mpr (mem_alistKeys_of_lookup hv)

/-- The node an index entry points to is live and carries the entry's key. -/
theorem heap_lookup_of_map {c : LRU_CACHE} (hInv : CacheInv c) {k : Int} {a : Nat}
    (h : alistLookup k c.cacheMap = some a) :
    ∃ v : Int, alistLookup a c.heap = some { key := k, value := v } :=
  (hInv.map_heap k a).mp h

/-- A live node's key is mapped to the node's own address by the index. -/
theorem map_lookup_of_heap {c : LRU_CACHE} (hInv : CacheInv c) {a : Nat} {nd : node}
    (h : alistLookup a c.heap = some nd) :
    alistLookup nd.key c.cacheMap = some a :=
  (hInv.map_heap nd.key a).mpr ⟨nd.value, h⟩

/-! ## Characterizations of get and put -/

theorem get_eq_miss {c : LRU_CACHE} {k : Int} (h : alistLookup k c.cacheMap = none) :
    c.get k = some (-1, c) := by
  unfold LRU_CACHE.get
  rw [h]

theorem get_eq_hit {c : LRU_CACHE} {k : Int} {a : Nat} {nd : node}
    (h : alistLookup k c.cacheMap = some a) (hh : alistLookup a c.heap = some nd) :
    c.get k = some (nd.value,
      { c with cacheList := double_linked_list.move_to_front a c.cacheList }) := by
  unfold LRU_CACHE.get
  rw [h]
  dsimp only
  rw [hh]

theorem put_eq_update {c : LRU_CACHE} {k v : Int} {a : Nat} {nd : node}
    (h : alistLookup k c.cacheMap = some a) (hh : alistLookup a c.heap = some nd) :
    c.put k v = some { c with
      heap := alistInsert a { key := nd.key, value := v } c.heap,
      cacheList := double_linked_list.move_to_front a c.cacheList } := by
  unfold LRU_CACHE.put
  rw [h]
  dsimp only
  rw [hh]

theorem put_eq_insert {c : LRU_CACHE} {k v : Int}
    (h : alistLookup k c.cacheMap = none)
    (hlt : c.cacheMap.length < size_t_of_int c.capacity) :
    c.put k v = some (LRU_CACHE.insert_new k v c) := by
  unfold LRU_CACHE.put
  rw [h]
  dsimp only
  rw [if_neg (by omega)]

theorem put_eq_evict_insert {c : LRU_CACHE} {k v : Int} {lruAddr : Nat}
    {rest : List Nat} {lruNode : node}
    (h : alistLookup k c.cacheMap = none)
    (hge : size_t_of_int c.capacity ≤ c.cacheMap.length)
    (hlast : double_linked_list.remove_last c.cacheList = some (lruAddr, rest))
    (hheap : alistLookup lruAddr c.heap = some lruNode) :
    c.put k v = some (LRU_CACHE.insert_new k v
      { c with
        cacheList := rest,
        cacheMap := alistErase lruNode.key c.cacheMap,
        heap := alistErase lruAddr c.heap }) := by
  unfold LRU_CACHE.put
  rw [h]
  dsimp only
  rw [if_pos hge, hlast]
  dsimp only
  rw [hheap]

/-! ## Invariant preservation -/

theorem cacheInv_get {c c' : LRU_CACHE} {k rv : Int} (hInv : CacheInv c)
    (h : c.get k = some (rv, c')) : CacheInv c' := by
  cases hl : alistLookup k c.cacheMap with
  | none =>
    rw [get_eq_miss hl] at h
    injection h with h
    have hc : c = c' := congrArg Prod.snd h
    rwa [← hc]
  | some a =>
    cases hh : alistLookup a c.heap with
    | none =>
      rcases heap_lookup_of_map hInv hl with ⟨w, hw⟩
      rw [hw] at hh
      exact Option.noConfusion hh
    | some nd =>
      rw [get_eq_hit hl hh] at h
      injection h with h
      have hc : ({ c with
          cacheList := double_linked_list.move_to_front a c.cacheList } : LRU_CACHE) = c' :=
        congrArg Prod.snd h
      rw [← hc]
      have amem : a ∈ c.cacheList := addr_mem_list hInv hl
      constructor
      · exact nodup_move_to_front hInv.list_nodup
      · exact hInv.map_keys_nodup
      · exact hInv.heap_keys_nodup
      · exact hInv.fresh
      · intro x
        exact (mem_move_to_front amem).trans (hInv.mem_iff x)
      · exact hInv.map_heap
      · show c.cacheMap.length = (double_linked_list.move_to_front a c.cacheList).length
        rw [length_move_to_front amem]
        exact hInv.len_eq
      · exact hInv.len_le

theorem cacheInv_insert_new {c : LRU_CACHE} {k v : Int} (hInv : CacheInv c)
    (habs : alistLookup k c.cacheMap = none)
    (hroom : c.cacheMap.length < size_t_of_int c.capacity) :
    CacheInv (LRU_CACHE.insert_new k v c) := by
  have hkabs : k ∉ alistKeys c.cacheMap := (alistLookup_eq_none_iff k c.cacheMap).mp habs
  have haheap : c.nextAddr ∉ alistKeys c.heap := fun hmem =>
    absurd (hInv.fresh c.nextAddr hmem) (lt_irrefl c.nextAddr)
  have halist : c.nextAddr ∉ c.cacheList := fun hmem => haheap ((hInv.mem_iff _).mp hmem)
  unfold LRU_CACHE.insert_new double_linked_list.add_first
  constructor
  · exact List.nodup_cons.mpr ⟨halist, hInv.list_nodup⟩
  · show (alistKeys (alistInsert k c.nextAddr c.cacheMap)).Nodup
    rw [alistKeys_alistInsert_of_not_mem _ hkabs]
    exact hInv.map_keys_nodup.append (List.nodup_singleton k)
      (fun x hx hx' => hkabs (by rwa [List.mem_singleton.mp hx'] at hx))
  · show (alistKeys (alistInsert c.nextAddr { key := k, value := v } c.heap)).Nodup
    rw [alistKeys_alistInsert_of_not_mem _ haheap]
    exact hInv.heap_keys_nodup.append (List.nodup_singleton _)
      (fun x hx hx' => haheap (by rwa [List.mem_singleton.mp hx'] at hx))
  · show ∀ a ∈ alistKeys (alistInsert c.nextAddr { key := k, value := v } c.heap),
      a < c.nextAddr + 1
    intro a ha
    rw [alistKeys_alistInsert_of_not_mem _ haheap] at ha
    rcases List.mem_append.mp ha with ha | ha
    · exact Nat.lt_succ_of_lt (hInv.fresh a ha)
    · rw [List.mem_singleton.mp ha]
      exact Nat.lt_succ_self _
  · intro a
    show a ∈ c.nextAddr :: c.cacheList ↔
      a ∈ alistKeys (alistInsert c.nextAddr { key := k, value := v } c.heap)
    rw [alistKeys_alistInsert_of_not_mem _ haheap, List.mem_cons, List.mem_append,
      List.mem_singleton, hInv.mem_iff a]
    exact or_comm
  · intro k' a'
    show alistLookup k' (alistInsert k c.nextAddr c.cacheMap) = some a' ↔
      ∃ w, alistLookup a' (alistInsert c.nextAddr { key := k, value := v } c.heap) =
        some { key := k', value := w }
    by_cases hk' : k' = k
    · subst hk'
      rw [alistLookup_alistInsert_self]
      by_cases ha' : a' = c.nextAddr
      · subst ha'
        rw [alistLookup_alistInsert_self]
        constructor
        · intro _
          exact ⟨v, rfl⟩
        · intro _
          rfl
      · rw [alistLookup_alistInsert_ne _ _ ha']
        constructor
        · intro hsome
          injection hsome with hsome
          exact absurd hsome.symm ha'
        · rintro ⟨w, hw⟩
          have hm : alistLookup k' c.cacheMap = some a' := map_lookup_of_heap hInv hw
          rw [habs] at hm
          exact Option.noConfusion hm
    · rw [alistLookup_alistInsert_ne _ _ hk']
      by_cases ha' : a' = c.nextAddr
      · subst ha'
        rw [alistLookup_alistInsert_self]
        constructor
        · intro hsome
          rcases heap_lookup_of_map hInv hsome with ⟨w, hw⟩
          exact absurd (mem_alistKeys_of_lookup hw) haheap
        · rintro ⟨w, hw⟩
          injection hw with hw
          exact absurd (congrArg node.key hw).symm hk'
      · rw [alistLookup_alistInsert_ne _ _ ha']
        exact hInv.map_heap k' a'
  · show (alistInsert k c.nextAddr c.cacheMap).length = (c.nextAddr :: c.cacheList).length
    rw [length_alistInsert_of_not_mem _ hkabs]
    simp [hInv.len_eq]
  · show (alistInsert k c.nextAddr c.cacheMap).length ≤ size_t_of_int c.capacity
    rw [length_alistInsert_of_not_mem _ hkabs]
    omega

theorem get_eq_none {c : LRU_CACHE} {k : Int} {a : Nat}
    (h : alistLookup k c.cacheMap = some a) (hh : alistLookup a c.heap = none) :
    c.get k = none := by
  unfold LRU_CACHE.get
  rw [h]
  dsimp only
  rw [hh]

theorem put_eq_none_update {c : LRU_CACHE} {k v : Int} {a : Nat}
    (h : alistLookup k c.cacheMap = some a) (hh : alistLookup a c.heap = none) :
    c.put k v = none := by
  unfold LRU_CACHE.put
  rw [h]
  dsimp only
  rw [hh]

theorem put_eq_none_of_empty {c : LRU_CACHE} {k v : Int}
    (h : alistLookup k c.cacheMap = none)
    (hge : size_t_of_int c.capacity ≤ c.cacheMap.length)
    (hrl : double_linked_list.remove_last c.cacheList = none) :
    c.put k v = none := by
  unfold LRU_CACHE.put
  rw [h]
  dsimp only
  rw [if_pos hge, hrl]

theorem put_eq_none_evict {c : LRU_CACHE} {k v : Int} {lruAddr : Nat} {rest : List Nat}
    (h : alistLookup k c.cacheMap = none)
    (hge : size_t_of_int c.capacity ≤ c.cacheMap.length)
    (hrl : double_linked_list.remove_last c.cacheList = some (lruAddr, rest))
    (hh : alistLookup lruAddr c.heap = none) :
    c.put k v = none := by
  unfold LRU_CACHE.put
  rw [h]
  dsimp only
  rw [if_pos hge, hrl]
  dsimp only
  rw [hh]

/-- The intermediate state of the eviction branch of put satisfies the
invariant, the evicted node's key is exactly the index entry pointing at the
tail address, and eviction shrinks the index by one. -/
theorem cacheInv_evict {c : LRU_CACHE} {lruAddr : Nat} {rest : List Nat} {lruNode : node}
    (hInv : CacheInv c)
    (hlast : double_linked_list.remove_last c.cacheList = some (lruAddr, rest))
    (hheap : alistLookup lruAddr c.heap = some lruNode) :
    CacheInv { c with
      cacheList := rest,
      cacheMap := alistErase lruNode.key c.cacheMap,
      heap := alistErase lruAddr c.heap } ∧
    alistLookup lruNode.key c.cacheMap = some lruAddr ∧
    (alistErase lruNode.key c.cacheMap).length + 1 = c.cacheMap.length := by
  rcases remove_last_eq_some hlast with ⟨hgl, hrest, hmeml⟩
  have hmap : alistLookup lruNode.key c.cacheMap = some lruAddr := map_lookup_of_heap hInv hheap
  have hkmem : lruNode.key ∈ alistKeys c.cacheMap := mem_alistKeys_of_lookup hmap
  have hlen := length_alistErase_of_mem hkmem
  subst hrest
  refine ⟨?_, hmap, hlen⟩
  constructor
  · exact hInv.list_nodup.erase lruAddr
  · show (alistKeys (alistErase lruNode.key c.cacheMap)).Nodup
    rw [alistKeys_alistErase]
    exact hInv.map_keys_nodup.erase _
  · show (alistKeys (alistErase lruAddr c.heap)).Nodup
    rw [alistKeys_alistErase]
    exact hInv.heap_keys_nodup.erase _
  · intro a ha
    show a < c.nextAddr
    rw [alistKeys_alistErase] at ha
    exact hInv.fresh a (List.mem_of_mem_erase ha)
  · intro a
    show a ∈ c.cacheList.erase lruAddr ↔ a ∈ alistKeys (alistErase lruAddr c.heap)
    rw [alistKeys_alistErase, hInv.list_nodup.mem_erase_iff, hInv.heap_keys_nodup.mem_erase_iff,
      hInv.mem_iff a]
  · intro k' a'
    show alistLookup k' (alistErase lruNode.key c.cacheMap) = some a' ↔
      ∃ w, alistLookup a' (alistErase lruAddr c.heap) = some { key := k', value := w }
    by_cases hk' : k' = lruNode.key
    · subst hk'
      rw [alistLookup_alistErase_self _ hInv.map_keys_nodup]
      constructor
      · intro hc
        exact Option.noConfusion hc
      · rintro ⟨w, hw⟩
        by_cases ha' : a' = lruAddr
        · subst ha'
          rw [alistLookup_alistErase_self _ hInv.heap_keys_nodup] at hw
          exact Option.noConfusion hw
        · rw [alistLookup_alistErase_ne _ ha'] at hw
          have h2 : alistLookup lruNode.key c.cacheMap = some a' := by
            have h3 := map_lookup_of_heap hInv hw
            exact h3
          rw [hmap] at h2
          injection h2 with h2
          exact (ha' h2.symm).elim
    · rw [alistLookup_alistErase_ne _ hk']
      by_cases ha' : a' = lruAddr
      · subst ha'
        rw [alistLookup_alistErase_self _ hInv.heap_keys_nodup]
        constructor
        · intro hsome
          rcases heap_lookup_of_map hInv hsome with ⟨w, hw⟩
          rw [hheap] at hw
          injection hw with hw
          exact absurd (congrArg node.key hw).symm hk'
        · rintro ⟨w, hw⟩
          exact Option.noConfusion hw
      · rw [alistLookup_alistErase_ne _ ha']
        exact hInv.map_heap k' a'
  · show (alistErase lruNode.key c.cacheMap).length = (c.cacheList.erase lruAddr).length
    have h2 := List.length_erase_of_mem hmeml
    have h3 := hInv.len_eq
    have h4 : 0 < c.cacheList.length := List.length_pos_of_mem hmeml
    omega
  · show (alistErase lruNode.key c.cacheMap).length ≤ size_t_of_int c.capacity
    have h5 := hInv.len_le
    omega

theorem cacheInv_put {c c' : LRU_CACHE} {k v : Int} (hInv : CacheInv c)
    (h : c.put k v = some c') : CacheInv c' := by
  cases hl : alistLookup k c.cacheMap with
  | some a =>
    cases hh : alistLookup a c.heap with
    | none =>
      rw [put_eq_none_update hl hh] at h
      exact Option.noConfusion h
    | some nd =>
      rw [put_eq_update hl hh] at h
      injection h with h
      rw [← h]
      have amem : a ∈ c.cacheList := addr_mem_list hInv hl
      have haheap : a ∈ alistKeys c.heap := mem_alistKeys_of_lookup hh
      constructor
      · exact nodup_move_to_front hInv.list_nodup
      · exact hInv.map_keys_nodup
      · show (alistKeys (alistInsert a { key := nd.key, value := v } c.heap)).Nodup
        rw [alistKeys_alistInsert_of_mem _ haheap]
        exact hInv.heap_keys_nodup
      · intro b hb
        show b < c.nextAddr
        rw [alistKeys_alistInsert_of_mem _ haheap] at hb
        exact hInv.fresh b hb
      · intro x
        show x ∈ double_linked_list.move_to_front a c.cacheList ↔
          x ∈ alistKeys (alistInsert a { key := nd.key, value := v } c.heap)
        rw [alistKeys_alistInsert_of_mem _ haheap]
        exact (mem_move_to_front amem).trans (hInv.mem_iff x)
      · intro k' a'
        show alistLookup k' c.cacheMap = some a' ↔
          ∃ w, alistLookup a' (alistInsert a { key := nd.key, value := v } c.heap) =
            some { key := k', value := w }
        by_cases ha' : a' = a
        · subst ha'
          rw [alistLookup_alistInsert_self]
          constructor
          · intro hsome
            rcases heap_lookup_of_map hInv hsome with ⟨w, hw⟩
            rw [hh] at hw
            injection hw with hw
            exact ⟨v, by rw [congrArg node.key hw]⟩
          · rintro ⟨w, hw⟩
            injection hw with hw
            have hk'nd : nd.key = k' := congrArg node.key hw
            rw [← hk'nd]
            exact map_lookup_of_heap hInv hh
        · rw [alistLookup_alistInsert_ne _ _ ha']
          exact hInv.map_heap k' a'
      · show c.cacheMap.length = (double_linked_list.move_to_front a c.cacheList).length
        rw [length_move_to_front amem]
        exact hInv.len_eq
      · exact hInv.len_le
  | none =>
    by_cases hge : size_t_of_int c.capacity ≤ c.cacheMap.length
    · cases hrl : double_linked_list.remove_last c.cacheList with
      | none =>
        rw [put_eq_none_of_empty hl hge hrl] at h
        exact Option.noConfusion h
      | some pr =>
        obtain ⟨lruAddr, rest⟩ := pr
        cases hh : alistLookup lruAddr c.heap with
        | none =>
          rw [put_eq_none_evict hl hge hrl hh] at h
          exact Option.noConfusion h
        | some lruNode =>
          rw [put_eq_evict_insert hl hge hrl hh] at h
          injection h with h
          rw [← h]
          rcases cacheInv_evict hInv hrl hh with ⟨hInvMid, hmap, hlen⟩
          apply cacheInv_insert_new hInvMid
          · show alistLookup k (alistErase lruNode.key c.cacheMap) = none
            have hkne : k ≠ lruNode.key := by
              intro hk
              rw [hk, hmap] at hl
              exact Option.noConfusion hl
            rw [alistLookup_alistErase_ne _ hkne]
            exact hl
          · show (alistErase lruNode.key c.cacheMap).length < size_t_of_int c.capacity
            have h5 := hInv.len_le
            omega
    · rw [put_eq_insert hl (by omega)] at h
      injection h with h
      rw [← h]
      exact cacheInv_insert_new hInv hl (by omega)

theorem capacity_get {c c' : LRU_CACHE} {k rv : Int} (hInv : CacheInv c)
    (h : c.get k = some (rv, c')) : c'.capacity = c.capacity := by
  cases hl : alistLookup k c.cacheMap with
  | none =>
    rw [get_eq_miss hl] at h
    injection h with h
    have h2 : c = c' := congrArg Prod.snd h
    rw [← h2]
  | some a =>
    cases hh : alistLookup a c.heap with
    | none =>
      rw [get_eq_none hl hh] at h
      exact Option.noConfusion h
    | some nd =>
      rw [get_eq_hit hl hh] at h
      injection h with h
      have h2 : ({ c with
          cacheList := double_linked_list.move_to_front a c.cacheList } : LRU_CACHE) = c' :=
        congrArg Prod.snd h
      rw [← h2]

theorem capacity_put {c c' : LRU_CACHE} {k v : Int} (h : c.put k v = some c') :
    c'.capacity = c.capacity := by
  cases hl : alistLookup k c.cacheMap with
  | some a =>
    cases hh : alistLookup a c.heap with
    | none =>
      rw [put_eq_none_update hl hh] at h
      exact Option.noConfusion h
    | some nd =>
      rw [put_eq_update hl hh] at h
      injection h with h
      rw [← h]
  | none =>
    by_cases hge : size_t_of_int c.capacity ≤ c.cacheMap.length
    · cases hrl : double_linked_list.remove_last c.cacheList with
      | none =>
        rw [put_eq_none_of_empty hl hge hrl] at h
        exact Option.noConfusion h
      | some pr =>
        obtain ⟨lruAddr, rest⟩ := pr
        cases hh : alistLookup lruAddr c.heap with
        | none =>
          rw [put_eq_none_evict hl hge hrl hh] at h
          exact Option.noConfusion h
        | some lruNode =>
          rw [put_eq_evict_insert hl hge hrl hh] at h
          injection h with h
          rw [← h]
          rfl
    · rw [put_eq_insert hl (by omega)] at h
      injection h with h
      rw [← h]
      rfl

theorem cacheInv_applyOp {c c' : LRU_CACHE} {op : Op} (hInv : CacheInv c)
    (h : applyOp c op = some c') : CacheInv c' := by
  cases op with
  | get k =>
    unfold applyOp at h
    dsimp only at h
    cases hg : c.get k with
    | none =>
      rw [hg] at h
      exact Option.noConfusion h
    | some pr =>
      obtain ⟨rv, c1⟩ := pr
      rw [hg] at h
      simp only [Option.map_some'] at h
      injection h with h
      rw [← h]
      exact cacheInv_get hInv hg
  | put k v => exact cacheInv_put hInv h

theorem capacity_applyOp {c c' : LRU_CACHE} {op : Op} (hInv : CacheInv c)
    (h : applyOp c op = some c') : c'.capacity = c.capacity := by
  cases op with
  | get k =>
    unfold applyOp at h
    dsimp only at h
    cases hg : c.get k with
    | none =>
      rw [hg] at h
      exact Option.noConfusion h
    | some pr =>
      obtain ⟨rv, c1⟩ := pr
      rw [hg] at h
      simp only [Option.map_some'] at h
      injection h with h
      rw [← h]
      exact capacity_get hInv hg
  | put k v => exact capacity_put h

theorem cacheInv_runOps {c c' : LRU_CACHE} {ops : List Op} (hInv : CacheInv c)
    (h : runOps c ops = some c') : CacheInv c' := by
  induction ops generalizing c with
  | nil =>
    unfold runOps at h
    injection h with h
    rw [← h]
    exact hInv
  | cons op rest ih =>
    unfold runOps at h
    cases ha : applyOp c op with
    | none =>
      rw [ha] at h
      exact Option.noConfusion h
    | some c1 =>
      rw [ha] at h
      dsimp only at h
      exact ih (cacheInv_applyOp hInv ha) h

theorem capacity_runOps {c c' : LRU_CACHE} {ops : List Op} (hInv : CacheInv c)
    (h : runOps c ops = some c') : c'.capacity = c.capacity := by
  induction ops generalizing c with
  | nil =>
    unfold runOps at h
    injection h with h
    rw [← h]
  | cons op rest ih =>
    unfold runOps at h
    cases ha : applyOp c op with
    | none =>
      rw [ha] at h
      exact Option.noConfusion h
    | some c1 =>
      rw [ha] at h
      dsimp only at h
      rw [ih (cacheInv_applyOp hInv ha) h, capacity_applyOp hInv ha]

/-- Every state reachable from a freshly constructed cache satisfies the
invariant. -/
theorem cacheInv_reachable {cap : Int} {ops : List Op} {c : LRU_CACHE}
    (h : runOps (LRU_CACHE.construct cap) ops = some c) : CacheInv c :=
  cacheInv_runOps (cacheInv_construct cap) h

/-- The capacity of a reachable state is the constructed capacity. -/
theorem capacity_reachable {cap : Int} {ops : List Op} {c : LRU_CACHE}
    (h : runOps (LRU_CACHE.construct cap) ops = some c) : c.capacity = cap :=
  capacity_runOps (cacheInv_construct cap) h

/-- For a capacity in the int range representable without wrap, the size_t
conversion is the identity. -/
theorem size_t_of_int_eq_toNat {i : Int} (h0 : 0 ≤ i) (h1 : i < 2 ^ 64) :
    size_t_of_int i = i.toNat := by
  unfold size_t_of_int
  rw [Int.emod_eq_of_lt h0 h1]

/-! ## Recency-order lemmas (for the recency law) -/

/-- Two distinct index entries point at distinct node addresses. -/
theorem map_lookup_inj {c : LRU_CACHE} (hInv : CacheInv c) {k1 k2 : Int} {a : Nat}
    (h1 : alistLookup k1 c.cacheMap = some a) (h2 : alistLookup k2 c.cacheMap = some a) :
    k1 = k2 := by
  rcases heap_lookup_of_map hInv h1 with ⟨v1, hv1⟩
  rcases heap_lookup_of_map hInv h2 with ⟨v2, hv2⟩
  rw [hv1] at hv2
  injection hv2 with hv2
  exact congrArg node.key hv2

/-- An element with something after it in a duplicate-free list is not the
last element. -/
theorem sublist_pair_not_getLast {a b : Nat} {l : List Nat}
    (hs : [a, b].Sublist l) (hnd : l.Nodup) (hgl : l.getLast? = some a) : False := by
  induction l with
  | nil => simp at hgl
  | cons x t ih =>
    cases hs with
    | cons _ hs' =>
      cases t with
      | nil => simp at hs'
      | cons y t' =>
        rw [List.getLast?_cons_cons] at hgl
        exact ih hs' (List.Nodup.of_cons hnd) hgl
    | cons₂ _ hs' =>
      cases t with
      | nil => simp at hs'
      | cons y t' =>
        rw [List.getLast?_cons_cons] at hgl
        have hmem : a ∈ y :: t' := List.mem_of_mem_getLast? (Option.mem_iff.mpr hgl)
        exact (List.nodup_cons.mp hnd).1 hmem

/-- Erasing an address different from both preserves a pair sublist. -/
theorem sublist_pair_erase {a b x : Nat} {l : List Nat}
    (hs : [a, b].Sublist l) (ha : x ≠ a) (hb : x ≠ b) :
    [a, b].Sublist (l.erase x) := by
  have h1 : [a, b].erase x = [a, b] := by
    apply List.erase_of_not_mem
    intro hm
    rcases List.mem_cons.mp hm with hm | hm
    · exact ha hm
    · rw [List.mem_singleton] at hm
      exact hb hm
  have h2 : List.Sublist ([a, b].erase x) (l.erase x) := hs.erase x
  rw [h1] at h2
  exact h2

/-- Moving an address that is not J's node to the front keeps K's node
before J's node. -/
theorem order_move_to_front {c : LRU_CACHE} (hInv : CacheInv c) {J k : Int} {a aK aJ : Nat}
    (hk : alistLookup k c.cacheMap = some a) (hkJ : k ≠ J)
    (hmJ : alistLookup J c.cacheMap = some aJ)
    (hsub : [aK, aJ].Sublist c.cacheList) :
    [aK, aJ].Sublist (double_linked_list.move_to_front a c.cacheList) := by
  have haJ : a ≠ aJ := fun he => hkJ (map_lookup_inj hInv hk (by rw [he]; exact hmJ))
  unfold double_linked_list.move_to_front double_linked_list.add_first
    double_linked_list.remove_node
  by_cases haK : a = aK
  · subst haK
    have hJl : aJ ∈ c.cacheList := hsub.subset (by simp)
    have hJmem : aJ ∈ c.cacheList.erase a :=
      (List.mem_erase_of_ne (fun he => haJ he.symm)).mpr hJl
    exact List.Sublist.cons₂ a (List.singleton_sublist.mpr hJmem)
  · exact (sublist_pair_erase hsub haK haJ).cons a

/-- After a successful operation whose key ends up present, that key's node
is at the front of the recency list. -/
theorem applyOp_head {c c' : LRU_CACHE} {op : Op} (hInv : CacheInv c)
    (h : applyOp c op = some c') (hK : Op.accessedKey op ∈ alistKeys c'.cacheMap) :
    ∃ aK rest, alistLookup (Op.accessedKey op) c'.cacheMap = some aK ∧
      c'.cacheList = aK :: rest := by
  cases op with
  | get k =>
    unfold applyOp at h
    dsimp only at h
    cases hl : alistLookup k c.cacheMap with
    | none =>
      rw [get_eq_miss hl] at h
      simp only [Option.map_some'] at h
      injection h with h
      rw [← h] at hK
      exact absurd hK ((alistLookup_eq_none_iff _ _).mp hl)
    | some a =>
      rcases heap_lookup_of_map hInv hl with ⟨w, hw⟩
      rw [get_eq_hit hl hw] at h
      simp only [Option.map_some'] at h
      injection h with h
      rw [← h]
      exact ⟨a, c.cacheList.erase a, hl, rfl⟩
  | put k v =>
    unfold applyOp at h
    dsimp only at h
    cases hl : alistLookup k c.cacheMap with
    | some a =>
      rcases heap_lookup_of_map hInv hl with ⟨w, hw⟩
      rw [put_eq_update hl hw] at h
      injection h with h
      rw [← h]
      exact ⟨a, c.cacheList.erase a, hl, rfl⟩
    | none =>
      by_cases hge : size_t_of_int c.capacity ≤ c.cacheMap.length
      · cases hrl : double_linked_list.remove_last c.cacheList with
        | none =>
          rw [put_eq_none_of_empty hl hge hrl] at h
          exact Option.noConfusion h
        | some pr =>
          obtain ⟨lruAddr, rest⟩ := pr
          cases hh : alistLookup lruAddr c.heap with
          | none =>
            rw [put_eq_none_evict hl hge hrl hh] at h
            exact Option.noConfusion h
          | some lruNode =>
            rw [put_eq_evict_insert hl hge hrl hh] at h
            injection h with h
            rw [← h]
            refine ⟨c.nextAddr, rest, ?_, rfl⟩
            exact alistLookup_alistInsert_self _ _ _
      · rw [put_eq_insert hl (by omega)] at h
        injection h with h
        rw [← h]
        refine ⟨c.nextAddr, c.cacheList, ?_, rfl⟩
        exact alistLookup_alistInsert_self _ _ _

/-- A key that is absent stays absent under any operation that does not
name it. -/
theorem notMem_preserved {c c' : LRU_CACHE} {op : Op} (hInv : CacheInv c)
    (h : applyOp c op = some c') {J : Int} (hne : Op.accessedKey op ≠ J)
    (hJ : J ∉ alistKeys c.cacheMap) : J ∉ alistKeys c'.cacheMap := by
  cases op with
  | get k =>
    unfold applyOp at h
    dsimp only at h
    cases hl : alistLookup k c.cacheMap with
    | none =>
      rw [get_eq_miss hl] at h
      simp only [Option.map_some'] at h
      injection h with h
      rw [← h]
      exact hJ
    | some a =>
      rcases heap_lookup_of_map hInv hl with ⟨w, hw⟩
      rw [get_eq_hit hl hw] at h
      simp only [Option.map_some'] at h
      injection h with h
      rw [← h]
      exact hJ
  | put k v =>
    have hkJ : k ≠ J := hne
    unfold applyOp at h
    dsimp only at h
    cases hl : alistLookup k c.cacheMap with
    | some a =>
      rcases heap_lookup_of_map hInv hl with ⟨w, hw⟩
      rw [put_eq_update hl hw] at h
      injection h with h
      rw [← h]
      exact hJ
    | none =>
      by_cases hge : size_t_of_int c.capacity ≤ c.cacheMap.length
      · cases hrl : double_linked_list.remove_last c.cacheList with
        | none =>
          rw [put_eq_none_of_empty hl hge hrl] at h
          exact Option.noConfusion h
        | some pr =>
          obtain ⟨lruAddr, rest⟩ := pr
          cases hh : alistLookup lruAddr c.heap with
          | none =>
            rw [put_eq_none_evict hl hge hrl hh] at h
            exact Option.noConfusion h
          | some lruNode =>
            rw [put_eq_evict_insert hl hge hrl hh] at h
            injection h with h
            rw [← h]
            intro hmem
            have hknotmem : k ∉ alistKeys (alistErase lruNode.key c.cacheMap) := by
              intro hm
              rw [alistKeys_alistErase] at hm
              exact (alistLookup_eq_none_iff _ _).mp hl (List.mem_of_mem_erase hm)
            have hmem2 : J ∈ alistKeys
                (alistInsert k c.nextAddr (alistErase lruNode.key c.cacheMap)) := hmem
            rw [alistKeys_alistInsert_of_not_mem _ hknotmem] at hmem2
            rcases List.mem_append.mp hmem2 with hm | hm
            · rw [alistKeys_alistErase] at hm
              exact hJ (List.mem_of_mem_erase hm)
            · rw [List.mem_singleton] at hm
              exact hkJ hm.symm
      · rw [put_eq_insert hl (by omega)] at h
        injection h with h
        rw [← h]
        intro hmem
        have hknotmem : k ∉ alistKeys c.cacheMap := (alistLookup_eq_none_iff _ _).mp hl
        have hmem2 : J ∈ alistKeys (alistInsert k c.nextAddr c.cacheMap) := hmem
        rw [alistKeys_alistInsert_of_not_mem _ hknotmem] at hmem2
        rcases List.mem_append.mp hmem2 with hm | hm
        · exact hJ hm
        · rw [List.mem_singleton] at hm
          exact hkJ hm.symm

/-- One successful operation that does not name J either evicts J or keeps
K's node strictly before J's node. -/
theorem step_preserves_order {c c' : LRU_CACHE} {op : Op} {K J : Int}
    (hInv : CacheInv c) (h : applyOp c op = some c') (hne : Op.accessedKey op ≠ J)
    (hprev : J ∉ alistKeys c.cacheMap ∨ keyOrderBefore c K J) :
    J ∉ alistKeys c'.cacheMap ∨ keyOrderBefore c' K J := by
  rcases hprev with hJ | hord
  · exact Or.inl (notMem_preserved hInv h hne hJ)
  · rcases hord with ⟨aK, aJ, hmK, hmJ, hsub⟩
    cases op with
    | get k =>
      have hkJ : k ≠ J := hne
      unfold applyOp at h
      dsimp only at h
      cases hl : alistLookup k c.cacheMap with
      | none =>
        rw [get_eq_miss hl] at h
        simp only [Option.map_some'] at h
        injection h with h
        rw [← h]
        exact Or.inr ⟨aK, aJ, hmK, hmJ, hsub⟩
      | some a =>
        rcases heap_lookup_of_map hInv hl with ⟨w, hw⟩
        rw [get_eq_hit hl hw] at h
        simp only [Option.map_some'] at h
        injection h with h
        rw [← h]
        exact Or.inr ⟨aK, aJ, hmK, hmJ, order_move_to_front hInv hl hkJ hmJ hsub⟩
    | put k v =>
      have hkJ : k ≠ J := hne
      unfold applyOp at h
      dsimp only at h
      cases hl : alistLookup k c.cacheMap with
      | some a =>
        rcases heap_lookup_of_map hInv hl with ⟨w, hw⟩
        rw [put_eq_update hl hw] at h
        injection h with h
        rw [← h]
        exact Or.inr ⟨aK, aJ, hmK, hmJ, order_move_to_front hInv hl hkJ hmJ hsub⟩
      | none =>
        have hkK : k ≠ K := by
          intro he
          rw [he, hmK] at hl
          exact Option.noConfusion hl
        by_cases hge : size_t_of_int c.capacity ≤ c.cacheMap.length
        · cases hrl : double_linked_list.remove_last c.cacheList with
          | none =>
            rw [put_eq_none_of_empty hl hge hrl] at h
            exact Option.noConfusion h
          | some pr =>
            obtain ⟨lruAddr, rest⟩ := pr
            cases hh : alistLookup lruAddr c.heap with
            | none =>
              rw [put_eq_none_evict hl hge hrl hh] at h
              exact Option.noConfusion h
            | some lruNode =>
              rw [put_eq_evict_insert hl hge hrl hh] at h
              injection h with h
              rw [← h]
              rcases remove_last_eq_some hrl with ⟨hgl, hrest, hmeml⟩
              subst hrest
              have hmap : alistLookup lruNode.key c.cacheMap = some lruAddr :=
                map_lookup_of_heap hInv hh
              by_cases hJevict : lruNode.key = J
              · left
                intro hmem
                have hknotmem : k ∉ alistKeys (alistErase lruNode.key c.cacheMap) := by
                  intro hm
                  rw [alistKeys_alistErase] at hm
                  exact (alistLookup_eq_none_iff _ _).mp hl (List.mem_of_mem_erase hm)
                have hmem2 : J ∈ alistKeys
                    (alistInsert k c.nextAddr (alistErase lruNode.key c.cacheMap)) := hmem
                rw [alistKeys_alistInsert_of_not_mem _ hknotmem] at hmem2
                rcases List.mem_append.mp hmem2 with hm | hm
                · rw [alistKeys_alistErase, hJevict] at hm
                  exact (hInv.map_keys_nodup.mem_erase_iff.mp hm).1 rfl
                · rw [List.mem_singleton] at hm
                  exact hkJ hm.symm
              · have haJ : lruAddr ≠ aJ := fun he =>
                  hJevict (map_lookup_inj hInv hmap (by rw [he]; exact hmJ))
                have haK : lruAddr ≠ aK := by
                  intro he
                  rw [he] at hgl
                  exact sublist_pair_not_getLast hsub hInv.list_nodup hgl
                have hKne : K ≠ lruNode.key := by
                  intro he
                  rw [he, hmap] at hmK
                  injection hmK with hmK
                  exact haK hmK
                have hJne : J ≠ lruNode.key := fun he => hJevict he.symm
                right
                refine ⟨aK, aJ, ?_, ?_, ?_⟩
                · show alistLookup K
                    (alistInsert k c.nextAddr (alistErase lruNode.key c.cacheMap)) = some aK
                  rw [alistLookup_alistInsert_ne _ _ (Ne.symm hkK),
                    alistLookup_alistErase_ne _ hKne]
                  exact hmK
                · show alistLookup J
                    (alistInsert k c.nextAddr (alistErase lruNode.key c.cacheMap)) = some aJ
                  rw [alistLookup_alistInsert_ne _ _ (Ne.symm hkJ),
                    alistLookup_alistErase_ne _ hJne]
                  exact hmJ
                · show [aK, aJ].Sublist (c.nextAddr :: c.cacheList.erase lruAddr)
                  exact (sublist_pair_erase hsub haK haJ).cons _
        · rw [put_eq_insert hl (by omega)] at h
          injection h with h
          rw [← h]
          right
          refine ⟨aK, aJ, ?_, ?_, ?_⟩
          · show alistLookup K (alistInsert k c.nextAddr c.cacheMap) = some aK
            rw [alistLookup_alistInsert_ne _ _ (Ne.symm hkK)]
            exact hmK
          · show alistLookup J (alistInsert k c.nextAddr c.cacheMap) = some aJ
            rw [alistLookup_alistInsert_ne _ _ (Ne.symm hkJ)]
            exact hmJ
          · show [aK, aJ].Sublist (c.nextAddr :: c.cacheList)
            exact hsub.cons _

/-- Order preservation along a whole operation sequence that never names J. -/
theorem runOps_preserves_order {K J : Int} {ops : List Op} {c c' : LRU_CACHE}
    (hInv : CacheInv c) (h : runOps c ops = some c')
    (hne : ∀ op ∈ ops, Op.accessedKey op ≠ J)
    (hprev : J ∉ alistKeys c.cacheMap ∨ keyOrderBefore c K J) :
    J ∉ alistKeys c'.cacheMap ∨ keyOrderBefore c' K J := by
  induction ops generalizing c with
  | nil =>
    unfold runOps at h
    injection h with h
    rw [← h]
    exact hprev
  | cons op rest ih =>
    unfold runOps at h
    cases ha : applyOp c op with
    | none =>
      rw [ha] at h
      exact Option.noConfusion h
    | some c1 =>
      rw [ha] at h
      dsimp only at h
      exact ih (cacheInv_applyOp hInv ha) h (fun o ho => hne o (List.mem_cons_of_mem op ho))
        (step_preserves_order hInv ha (hne op (List.mem_cons_self op rest)) hprev)

/-- Right after a successful access of K (get hit or put), K's node is the
most recent: it precedes every other present key's node. -/
theorem access_establishes_order {c c' : LRU_CACHE} {op : Op} {K J : Int}
    (hInv : CacheInv c) (h : applyOp c op = some c')
    (hKacc : Op.accessedKey op = K) (hKJ : K ≠ J)
    (hKmem : K ∈ alistKeys c'.cacheMap) :
    J ∉ alistKeys c'.cacheMap ∨ keyOrderBefore c' K J := by
  by_cases hJ : J ∈ alistKeys c'.cacheMap
  · right
    have hInv' : CacheInv c' := cacheInv_applyOp hInv h
    rcases applyOp_head hInv h (by rw [hKacc]; exact hKmem) with ⟨aK, rest, hlK, hlist⟩
    rw [hKacc] at hlK
    rcases Option.isSome_iff_exists.mp (alistLookup_isSome_of_mem hJ) with ⟨aJ, hlJ⟩
    have hne : aJ ≠ aK := by
      intro he
      have hlJ2 : alistLookup J c'.cacheMap = some aK := by rw [← he]; exact hlJ
      exact hKJ (map_lookup_inj hInv' hlK hlJ2)
    have hmemJ : aJ ∈ c'.cacheList := addr_mem_list hInv' hlJ
    rw [hlist] at hmemJ
    have hmemJ2 : aJ ∈ rest := by
      rcases List.mem_cons.mp hmemJ with hm | hm
      · exact absurd hm hne
      · exact hm
    refine ⟨aK, aJ, hlK, hlJ, ?_⟩
    rw [hlist]
    exact List.Sublist.cons₂ aK (List.singleton_sublist.mpr hmemJ2)
  · exact Or.inl hJ

/-! ## Additional helper lemmas for the claims -/

theorem nodup_filterMap_of_inj {α β : Type} (f : α → Option β) {l : List α}
    (hinj : ∀ a a' b, f a = some b → f a' = some b → a = a')
    (h : l.Nodup) : (l.filterMap f).Nodup := by
  induction l with
  | nil => simp
  | cons x t ih =>
    rw [List.filterMap_cons]
    rcases List.nodup_cons.mp h with ⟨hx, ht⟩
    cases hfx : f x with
    | none => exact ih ht
    | some b =>
      refine List.nodup_cons.mpr ⟨?_, ih ht⟩
      intro hmem
      rcases List.mem_filterMap.mp hmem with ⟨a, ha, hfa⟩
      rw [hinj a x b hfa hfx] at ha
      exact hx ha

/-! ## The claims -/

/-- Claim C1 (code bug in the constructor): LRU_CACHE::LRU_CACHE performs no
capacity validation.  Constructing with capacity 0 succeeds (the capacity is
stored unchecked and both containers are empty), the resulting object is
usable (get returns the ordinary miss indicator), and the first new-key put
on it reaches the eviction branch with an empty recency list and
dereferences the nullptr returned by remove_last (undefined behaviour,
modelled as none) instead of the construction having been rejected. -/
theorem construct_accepts_invalid_capacity :
    LRU_CACHE.construct 0 =
      { capacity := 0, cacheMap := [], heap := [], cacheList := [], nextAddr := 0 } ∧
    (LRU_CACHE.construct 0).get 1 = some (-1, LRU_CACHE.construct 0) ∧
    (LRU_CACHE.construct 0).put 1 1 = none := by
  refine ⟨rfl, rfl, ?_⟩
  have h : alistLookup (1 : Int) (LRU_CACHE.construct 0).cacheMap = none := rfl
  have hge : size_t_of_int (LRU_CACHE.construct 0).capacity ≤
      (LRU_CACHE.construct 0).cacheMap.length := by
    show size_t_of_int 0 ≤ 0
    unfold size_t_of_int
    omega
  exact put_eq_none_of_empty h hge rfl

/-- Claim C3: capacity invariant.  For every capacity ≥ 1 and every finite
sequence of get/put operations run from a freshly constructed cache, after
every operation the size (number of index entries, which equals the number
of recency-list entries) is at most the capacity. -/
theorem capacity_invariant (cap : Int) (ops : List Op) (c : LRU_CACHE)
    (hcap1 : 1 ≤ cap) (hcap2 : cap < 2 ^ 31)
    (hrun : runOps (LRU_CACHE.construct cap) ops = some c) :
    c.cacheMap.length ≤ cap.toNat ∧ c.cacheMap.length = c.cacheList.length := by
  have hInv := cacheInv_reachable hrun
  have hc := capacity_reachable hrun
  have hle := hInv.len_le
  rw [hc, size_t_of_int_eq_toNat (by omega) (by omega)] at hle
  exact ⟨hle, hInv.len_eq⟩

/-- Claim C4: bijection invariant.  In every reachable state the key set of
the index equals the key set of the nodes linked in the recency list, and
each key occurs in the recency list exactly once. -/
theorem bijection_invariant (cap : Int) (ops : List Op) (c : LRU_CACHE)
    (hcap1 : 1 ≤ cap) (hcap2 : cap < 2 ^ 31)
    (hrun : runOps (LRU_CACHE.construct cap) ops = some c) :
    (∀ k : Int, k ∈ alistKeys c.cacheMap ↔ k ∈ listKeys c) ∧ (listKeys c).Nodup := by
  have hInv := cacheInv_reachable hrun
  constructor
  · intro k
    constructor
    · intro hk
      rcases Option.isSome_iff_exists.mp (alistLookup_isSome_of_mem hk) with ⟨a, ha⟩
      rcases heap_lookup_of_map hInv ha with ⟨w, hw⟩
      apply List.mem_filterMap.mpr
      refine ⟨a, addr_mem_list hInv ha, ?_⟩
      rw [hw]
      rfl
    · intro hk
      rcases List.mem_filterMap.mp hk with ⟨a, ha, hfa⟩
      cases hh : alistLookup a c.heap with
      | none =>
        rw [hh] at hfa
        exact Option.noConfusion hfa
      | some nd =>
        rw [hh] at hfa
        simp only [Option.map_some'] at hfa
        injection hfa with hfa
        have hm := map_lookup_of_heap hInv hh
        rw [hfa] at hm
        exact mem_alistKeys_of_lookup hm
  · apply nodup_filterMap_of_inj _ ?_ hInv.list_nodup
    intro a a' b hfa hfa'
    cases hh : alistLookup a c.heap with
    | none =>
      rw [hh] at hfa
      exact Option.noConfusion hfa
    | some nd =>
      cases hh' : alistLookup a' c.heap with
      | none =>
        rw [hh'] at hfa'
        exact Option.noConfusion hfa'
      | some nd' =>
        rw [hh] at hfa
        rw [hh'] at hfa'
        simp only [Option.map_some'] at hfa hfa'
        injection hfa with hfa
        injection hfa' with hfa'
        have hm := map_lookup_of_heap hInv hh
        have hm' := map_lookup_of_heap hInv hh'
        rw [hfa] at hm
        rw [hfa'] at hm'
        rw [hm] at hm'
        exact Option.some.inj hm'

/-- Claim C8: miss transparency.  A get on an absent key returns the miss
indicator and the state is returned entirely unchanged. -/
theorem get_miss_transparent (c : LRU_CACHE) (k : Int)
    (habs : alistLookup k c.cacheMap = none) :
    c.get k = some (-1, c) :=
  get_eq_miss habs

/-- Claim C10: the miss indicator is the in-band value -1.  A get on any
absent key returns -1, and after put(k, -1) a successful subsequent get(k)
also returns -1, so the return value alone cannot distinguish a stored -1
from a miss. -/
theorem miss_indicator_minus_one :
    (∀ (c : LRU_CACHE) (k : Int), alistLookup k c.cacheMap = none →
      c.get k = some (-1, c)) ∧
    (∀ (c c' : LRU_CACHE) (k : Int), c.put k (-1) = some c' →
      ∃ c'' : LRU_CACHE, c'.get k = some (-1, c'')) := by
  constructor
  · intro c k h
    exact get_eq_miss h
  · intro c c' k h
    cases hl : alistLookup k c.cacheMap with
    | some a =>
      cases hh : alistLookup a c.heap with
      | none =>
        rw [put_eq_none_update hl hh] at h
        exact Option.noConfusion h
      | some nd =>
        rw [put_eq_update hl hh] at h
        injection h with h
        rw [← h]
        exact ⟨_, @get_eq_hit
          { c with
            heap := alistInsert a { key := nd.key, value := -1 } c.heap,
            cacheList := double_linked_list.move_to_front a c.cacheList }
          k a { key := nd.key, value := -1 } hl (alistLookup_alistInsert_self _ _ _)⟩
    | none =>
      by_cases hge : size_t_of_int c.capacity ≤ c.cacheMap.length
      · cases hrl : double_linked_list.remove_last c.cacheList with
        | none =>
          rw [put_eq_none_of_empty hl hge hrl] at h
          exact Option.noConfusion h
        | some pr =>
          obtain ⟨lruAddr, rest⟩ := pr
          cases hh : alistLookup lruAddr c.heap with
          | none =>
            rw [put_eq_none_evict hl hge hrl hh] at h
            exact Option.noConfusion h
          | some lruNode =>
            rw [put_eq_evict_insert hl hge hrl hh] at h
            injection h with h
            rw [← h]
            exact ⟨_, @get_eq_hit
              (LRU_CACHE.insert_new k (-1)
                { c with
                  cacheList := rest,
                  cacheMap := alistErase lruNode.key c.cacheMap,
                  heap := alistErase lruAddr c.heap })
              k c.nextAddr { key := k, value := -1 }
              (alistLookup_alistInsert_self _ _ _) (alistLookup_alistInsert_self _ _ _)⟩
      · rw [put_eq_insert hl (by omega)] at h
        injection h with h
        rw [← h]
        exact ⟨_, @get_eq_hit (LRU_CACHE.insert_new k (-1) c)
          k c.nextAddr { key := k, value := -1 }
          (alistLookup_alistInsert_self _ _ _) (alistLookup_alistInsert_self _ _ _)⟩

/-- Claim C9 (corrected): from any state reachable with capacity ≥ 1, the
eviction branch of put is only ever entered with a non-empty recency list,
so remove_last never returns the nullptr there and put completes without
dereferencing an invalid node (isSome).  With capacity 0 the eviction
branch is entered with an empty list on the first new-key put and the null
result is dereferenced (none).  With a negative capacity, however, the
comparison cacheMap.size() >= capacity converts the capacity to size_t, so
the eviction branch is never taken and the put inserts without evicting. -/
theorem eviction_branch_safety :
    (∀ (cap : Int) (ops : List Op) (c : LRU_CACHE) (k v : Int),
      1 ≤ cap → cap < 2 ^ 31 →
      runOps (LRU_CACHE.construct cap) ops = some c →
      ((alistLookup k c.cacheMap = none →
        size_t_of_int c.capacity ≤ c.cacheMap.length →
        c.cacheList ≠ [] ∧ (double_linked_list.remove_last c.cacheList).isSome) ∧
      (c.put k v).isSome)) ∧
    (LRU_CACHE.construct 0).put 1 1 = none ∧
    (∀ (c : LRU_CACHE) (k v : Int),
      -(2 ^ 31) ≤ c.capacity → c.capacity < 0 → c.cacheMap.length < 2 ^ 33 →
      alistLookup k c.cacheMap = none →
      c.put k v = some (LRU_CACHE.insert_new k v c)) := by
  refine ⟨?_, ?_, ?_⟩
  · intro cap ops c k v hcap1 hcap2 hrun
    have hInv := cacheInv_reachable hrun
    have hcapeq := capacity_reachable hrun
    have hst : size_t_of_int c.capacity = cap.toNat := by
      rw [hcapeq]
      exact size_t_of_int_eq_toNat (by omega) (by omega)
    have hlist : size_t_of_int c.capacity ≤ c.cacheMap.length → c.cacheList ≠ [] := by
      intro hfull he
      have h5 := hInv.len_eq
      rw [he] at h5
      simp only [List.length_nil] at h5
      rw [hst] at hfull
      omega
    constructor
    · intro _ hfull
      exact ⟨hlist hfull, remove_last_isSome (hlist hfull)⟩
    · cases hl : alistLookup k c.cacheMap with
      | some a =>
        rcases heap_lookup_of_map hInv hl with ⟨w, hw⟩
        rw [put_eq_update hl hw]
        rfl
      | none =>
        by_cases hge : size_t_of_int c.capacity ≤ c.cacheMap.length
        · cases hrl : double_linked_list.remove_last c.cacheList with
          | none =>
            have h6 := remove_last_isSome (hlist hge)
            rw [hrl] at h6
            exact Bool.noConfusion h6
          | some pr =>
            obtain ⟨lruAddr, rest⟩ := pr
            rcases remove_last_eq_some hrl with ⟨hgl, hrest, hmeml⟩
            have hmem : lruAddr ∈ alistKeys c.heap := (hInv.mem_iff lruAddr).mp hmeml
            rcases Option.isSome_iff_exists.mp (alistLookup_isSome_of_mem hmem) with ⟨nd, hnd⟩
            rw [put_eq_evict_insert hl hge hrl hnd]
            rfl
        · rw [put_eq_insert hl (by omega)]
          rfl
  · have h : alistLookup (1 : Int) (LRU_CACHE.construct 0).cacheMap = none := rfl
    have hge : size_t_of_int (LRU_CACHE.construct 0).capacity ≤
        (LRU_CACHE.construct 0).cacheMap.length := by
      show size_t_of_int 0 ≤ 0
      unfold size_t_of_int
      omega
    exact put_eq_none_of_empty h hge rfl
  · intro c k v hlow hneg hlen habs
    have hst : 2 ^ 33 ≤ size_t_of_int c.capacity := by
      unfold size_t_of_int
      omega
    exact put_eq_insert habs (by omega)

/-- Claim C6: get on a present key returns the value stored in that key's
node, leaves the index, the heap and hence the size unchanged, and moves
exactly that node to the front of the recency list, preserving the relative
order of all other nodes. -/
theorem get_hit_spec (c : LRU_CACHE) (k : Int) (a : Nat) (hInv : CacheInv c)
    (hk : alistLookup k c.cacheMap = some a) :
    ∃ (nd : node) (l₁ l₂ : List Nat),
      alistLookup a c.heap = some nd ∧ nd.key = k ∧
      c.cacheList = l₁ ++ a :: l₂ ∧ a ∉ l₁ ∧ a ∉ l₂ ∧
      c.get k = some (nd.value, { c with cacheList := a :: (l₁ ++ l₂) }) ∧
      (a :: (l₁ ++ l₂)).length = c.cacheList.length := by
  rcases heap_lookup_of_map hInv hk with ⟨w, hw⟩
  have amem : a ∈ c.cacheList := addr_mem_list hInv hk
  rcases List.append_of_mem amem with ⟨l₁, l₂, hsplit⟩
  have hnd := hInv.list_nodup
  rw [hsplit] at hnd
  have hmid := List.nodup_middle.mp hnd
  rcases List.nodup_cons.mp hmid with ⟨hnotmem, _⟩
  have h1 : a ∉ l₁ := fun hm => hnotmem (List.mem_append.mpr (Or.inl hm))
  have h2 : a ∉ l₂ := fun hm => hnotmem (List.mem_append.mpr (Or.inr hm))
  have herase : c.cacheList.erase a = l₁ ++ l₂ := by
    rw [hsplit, List.erase_append_right _ h1, List.erase_cons_head]
  refine ⟨{ key := k, value := w }, l₁, l₂, hw, rfl, hsplit, h1, h2, ?_, ?_⟩
  · have hg := get_eq_hit hk hw
    rw [show double_linked_list.move_to_front a c.cacheList = a :: (l₁ ++ l₂) by
      unfold double_linked_list.move_to_front double_linked_list.add_first
        double_linked_list.remove_node
      rw [herase]] at hg
    exact hg
  · rw [hsplit]
    simp
    omega

/-- Claim C7: put on an already-present key updates the value of that key's
node in place (same node, same address), moves the node to the front,
leaves the index untouched and creates or destroys no node, so the size
cannot grow and nothing is evicted, regardless of how full the cache is. -/
theorem put_update_in_place (c : LRU_CACHE) (k v : Int) (a : Nat) (hInv : CacheInv c)
    (hk : alistLookup k c.cacheMap = some a) :
    ∃ (nd : node) (l₁ l₂ : List Nat),
      alistLookup a c.heap = some nd ∧ nd.key = k ∧
      c.cacheList = l₁ ++ a :: l₂ ∧ a ∉ l₁ ∧ a ∉ l₂ ∧
      c.put k v = some { c with
        heap := alistInsert a { key := k, value := v } c.heap,
        cacheList := a :: (l₁ ++ l₂) } ∧
      alistLookup a (alistInsert a { key := k, value := v } c.heap) =
        some { key := k, value := v } ∧
      alistKeys (alistInsert a { key := k, value := v } c.heap) = alistKeys c.heap ∧
      (a :: (l₁ ++ l₂)).length = c.cacheList.length := by
  rcases heap_lookup_of_map hInv hk with ⟨w, hw⟩
  have amem : a ∈ c.cacheList := addr_mem_list hInv hk
  rcases List.append_of_mem amem with ⟨l₁, l₂, hsplit⟩
  have hnd := hInv.list_nodup
  rw [hsplit] at hnd
  have hmid := List.nodup_middle.mp hnd
  rcases List.nodup_cons.mp hmid with ⟨hnotmem, _⟩
  have h1 : a ∉ l₁ := fun hm => hnotmem (List.mem_append.mpr (Or.inl hm))
  have h2 : a ∉ l₂ := fun hm => hnotmem (List.mem_append.mpr (Or.inr hm))
  have herase : c.cacheList.erase a = l₁ ++ l₂ := by
    rw [hsplit, List.erase_append_right _ h1, List.erase_cons_head]
  refine ⟨{ key := k, value := w }, l₁, l₂, hw, rfl, hsplit, h1, h2, ?_, ?_, ?_, ?_⟩
  · have hp := @put_eq_update c k v a { key := k, value := w } hk hw
    rw [show double_linked_list.move_to_front a c.cacheList = a :: (l₁ ++ l₂) by
      unfold double_linked_list.move_to_front double_linked_list.add_first
        double_linked_list.remove_node
      rw [herase]] at hp
    exact hp
  · exact alistLookup_alistInsert_self _ _ _
  · exact alistKeys_alistInsert_of_mem _ (mem_alistKeys_of_lookup hw)
  · rw [hsplit]
    simp
    omega

/-- Claim C2: put of an absent key into a full cache (size = capacity ≥ 1)
evicts exactly the tail node of the recency list: that node is unlinked,
its key is erased from the index, the node is freed, and only then is the
new node inserted at the front of the list and into the index; the size
after the operation is again exactly the capacity, so the cache never
exceeds its capacity, and the intermediate state is one entry below it. -/
theorem put_full_evicts (c : LRU_CACHE) (k v : Int) (hInv : CacheInv c)
    (hcap1 : 1 ≤ c.capacity) (hcap2 : c.capacity < 2 ^ 31)
    (habs : alistLookup k c.cacheMap = none)
    (hfull : c.cacheMap.length = c.capacity.toNat) :
    ∃ (lruAddr : Nat) (lruNode : node) (c' : LRU_CACHE),
      c.cacheList.getLast? = some lruAddr ∧
      alistLookup lruAddr c.heap = some lruNode ∧
      alistLookup lruNode.key c.cacheMap = some lruAddr ∧
      c.put k v = some c' ∧
      c' = LRU_CACHE.insert_new k v
        { c with
          cacheList := double_linked_list.remove_node lruAddr c.cacheList,
          cacheMap := alistErase lruNode.key c.cacheMap,
          heap := alistErase lruAddr c.heap } ∧
      (alistErase lruNode.key c.cacheMap).length + 1 = c.capacity.toNat ∧
      alistLookup lruNode.key c'.cacheMap = none ∧
      lruAddr ∉ c'.cacheList ∧
      alistLookup k c'.cacheMap = some c.nextAddr ∧
      c'.cacheMap.length = c.capacity.toNat ∧
      c'.cacheList.length = c.capacity.toNat := by
  have hst : size_t_of_int c.capacity = c.capacity.toNat :=
    size_t_of_int_eq_toNat (by omega) (by omega)
  have hge : size_t_of_int c.capacity ≤ c.cacheMap.length := by
    rw [hst, hfull]
  have hlenpos : 1 ≤ c.cacheMap.length := by
    rw [hfull]
    omega
  have hlistne : c.cacheList ≠ [] := by
    intro he
    have h5 := hInv.len_eq
    rw [he] at h5
    simp only [List.length_nil] at h5
    omega
  cases hrl : double_linked_list.remove_last c.cacheList with
  | none =>
    have h6 := remove_last_isSome hlistne
    rw [hrl] at h6
    exact Bool.noConfusion h6
  | some pr =>
    obtain ⟨lruAddr, rest⟩ := pr
    rcases remove_last_eq_some hrl with ⟨hgl, hrest, hmeml⟩
    have hmem : lruAddr ∈ alistKeys c.heap := (hInv.mem_iff lruAddr).mp hmeml
    rcases Option.isSome_iff_exists.mp (alistLookup_isSome_of_mem hmem) with ⟨lruNode, hnd⟩
    have hmap : alistLookup lruNode.key c.cacheMap = some lruAddr :=
      map_lookup_of_heap hInv hnd
    have hkmem : lruNode.key ∈ alistKeys c.cacheMap := mem_alistKeys_of_lookup hmap
    have hlen := length_alistErase_of_mem hkmem
    have hkne : k ≠ lruNode.key := by
      intro hk
      rw [hk, hmap] at habs
      exact Option.noConfusion habs
    have hknotmem : k ∉ alistKeys (alistErase lruNode.key c.cacheMap) := by
      intro hm
      rw [alistKeys_alistErase] at hm
      exact (alistLookup_eq_none_iff _ _).mp habs (List.mem_of_mem_erase hm)
    have hput := @put_eq_evict_insert c k v lruAddr rest lruNode habs hge hrl hnd
    refine ⟨lruAddr, lruNode, _, hgl, hnd, hmap, hput, ?_, ?_, ?_, ?_, ?_, ?_, ?_⟩
    · rw [hrest]
      rfl
    · omega
    · show alistLookup lruNode.key
        (alistInsert k c.nextAddr (alistErase lruNode.key c.cacheMap)) = none
      rw [alistLookup_alistInsert_ne _ _ (Ne.symm hkne)]
      exact alistLookup_alistErase_self _ hInv.map_keys_nodup
    · show lruAddr ∉ c.nextAddr :: rest
      intro hm
      rcases List.mem_cons.mp hm with hm | hm
      · have hfr := hInv.fresh lruAddr hmem
        omega
      · rw [hrest] at hm
        exact (hInv.list_nodup.mem_erase_iff.mp hm).1 rfl
    · show alistLookup k
        (alistInsert k c.nextAddr (alistErase lruNode.key c.cacheMap)) = some c.nextAddr
      exact alistLookup_alistInsert_self _ _ _
    · show (alistInsert k c.nextAddr (alistErase lruNode.key c.cacheMap)).length =
        c.capacity.toNat
      rw [length_alistInsert_of_not_mem _ hknotmem]
      omega
    · show (c.nextAddr :: rest).length = c.capacity.toNat
      rw [hrest]
      have h7 := List.length_erase_of_mem hmeml
      have h8 := hInv.len_eq
      have h9 : 0 < c.cacheList.length := List.length_pos_of_mem hmeml
      simp only [List.length_cons]
      omega

/-- Claim C5: the recency law.  If the operation acc accesses key K (a put,
or a get that hits, witnessed by K being present immediately afterwards)
and the subsequent operations never name key J, then at the end of any such
subsequent sequence, if J is still cached then K is still cached and K's
node sits strictly closer to the most-recently-used end than J's node — so
under any capacity pressure J is evicted no later than K. -/
theorem recency_law (cap K J : Int) (hKJ : K ≠ J)
    (ops₁ ops₂ : List Op) (acc : Op) (c₀ c₁ c₂ : LRU_CACHE)
    (hrun₁ : runOps (LRU_CACHE.construct cap) ops₁ = some c₀)
    (hacc : applyOp c₀ acc = some c₁)
    (hKacc : Op.accessedKey acc = K)
    (hKhit : K ∈ alistKeys c₁.cacheMap)
    (hJ : ∀ op ∈ ops₂, Op.accessedKey op ≠ J)
    (hrun₂ : runOps c₁ ops₂ = some c₂)
    (hJin : J ∈ alistKeys c₂.cacheMap) :
    K ∈ alistKeys c₂.cacheMap ∧ keyOrderBefore c₂ K J := by
  have hInv₀ := cacheInv_reachable hrun₁
  have hInv₁ := cacheInv_applyOp hInv₀ hacc
  have hbase := access_establishes_order hInv₀ hacc hKacc hKJ hKhit
  have hfinal := runOps_preserves_order hInv₁ hrun₂ hJ hbase
  rcases hfinal with hJout | hord
  · exact absurd hJin hJout
  · rcases hord with ⟨aK, aJ, hmK, hmJ, hsub⟩
    exact ⟨mem_alistKeys_of_lookup hmK, ⟨aK, aJ, hmK, hmJ, hsub⟩⟩

/-! ## Witnesses and counterexample at concrete inputs -/

/-- Witness for the capacity invariant on the driver's own run. -/
theorem capacity_invariant_witness :
    (1 : Int) ≤ 2 ∧ (2 : Int) < 2 ^ 31 ∧
    (sampleAfterEvict.cacheMap.length ≤ (2 : Int).toNat ∧
      sampleAfterEvict.cacheMap.length = sampleAfterEvict.cacheList.length) :=
  ⟨by decide, by decide,
    capacity_invariant 2 [Op.put 1 10, Op.put 2 20, Op.get 1, Op.put 3 30]
      sampleAfterEvict (by decide) (by decide) (by rfl)⟩

/-- Witness for the bijection invariant on the driver's own run. -/
theorem bijection_invariant_witness :
    ((3 : Int) ∈ alistKeys sampleAfterEvict.cacheMap ↔ (3 : Int) ∈ listKeys sampleAfterEvict) ∧
    (listKeys sampleAfterEvict).Nodup :=
  ⟨(bijection_invariant 2 [Op.put 1 10, Op.put 2 20, Op.get 1, Op.put 3 30]
      sampleAfterEvict (by decide) (by decide) (by rfl)).1 3,
    (bijection_invariant 2 [Op.put 1 10, Op.put 2 20, Op.get 1, Op.put 3 30]
      sampleAfterEvict (by decide) (by decide) (by rfl)).2⟩

/-- Witness for miss transparency at a concrete fresh cache. -/
theorem get_miss_transparent_witness :
    (LRU_CACHE.construct 2).get 5 = some (-1, LRU_CACHE.construct 2) :=
  get_miss_transparent (LRU_CACHE.construct 2) 5 rfl

/-- Witness for the in-band miss indicator at concrete inputs. -/
theorem miss_indicator_minus_one_witness :
    (LRU_CACHE.construct 2).get 7 = some (-1, LRU_CACHE.construct 2) ∧
    (∃ c'' : LRU_CACHE, sampleMinus.get 4 = some (-1, c'')) :=
  ⟨miss_indicator_minus_one.1 (LRU_CACHE.construct 2) 7 rfl,
    miss_indicator_minus_one.2 (LRU_CACHE.construct 2) sampleMinus 4 rfl⟩

/-- Witness for eviction-branch safety at a concrete full capacity-1 cache. -/
theorem eviction_branch_safety_witness :
    (sampleOne.cacheList ≠ [] ∧
      (double_linked_list.remove_last sampleOne.cacheList).isSome) ∧
    (sampleOne.put 6 0).isSome :=
  ⟨(eviction_branch_safety.1 1 [Op.put 5 7] sampleOne 6 0 (by decide) (by decide) rfl).1
      rfl (by decide),
    (eviction_branch_safety.1 1 [Op.put 5 7] sampleOne 6 0 (by decide) (by decide) rfl).2⟩

/-- Counterexample to the claim that any capacity ≤ 0 reaches the eviction
branch and dereferences the null tail: with capacity -1 the size_t
conversion makes the fullness test false, so put(1,1) on the fresh cache
skips eviction entirely and succeeds. -/
theorem put_negative_capacity_no_eviction :
    (LRU_CACHE.construct (-1)).put 1 1 =
      some (LRU_CACHE.insert_new 1 1 (LRU_CACHE.construct (-1))) ∧
    (LRU_CACHE.construct (-1)).put 1 1 ≠ none := by
  constructor
  · rfl
  · intro h
    have he : (LRU_CACHE.construct (-1)).put 1 1 =
        some (LRU_CACHE.insert_new 1 1 (LRU_CACHE.construct (-1))) := rfl
    rw [he] at h
    exact Option.noConfusion h

/-- Witness for the full-cache eviction contract: sampleFull is a full
capacity-2 cache and put(3,30) evicts the tail entry (key 2). -/
theorem put_full_evicts_witness :
    ∃ (lruAddr : Nat) (lruNode : node) (c' : LRU_CACHE),
      sampleFull.cacheList.getLast? = some lruAddr ∧
      alistLookup lruAddr sampleFull.heap = some lruNode ∧
      alistLookup lruNode.key sampleFull.cacheMap = some lruAddr ∧
      sampleFull.put 3 30 = some c' ∧
      c' = LRU_CACHE.insert_new 3 30
        { sampleFull with
          cacheList := double_linked_list.remove_node lruAddr sampleFull.cacheList,
          cacheMap := alistErase lruNode.key sampleFull.cacheMap,
          heap := alistErase lruAddr sampleFull.heap } ∧
      (alistErase lruNode.key sampleFull.cacheMap).length + 1 = sampleFull.capacity.toNat ∧
      alistLookup lruNode.key c'.cacheMap = none ∧
      lruAddr ∉ c'.cacheList ∧
      alistLookup 3 c'.cacheMap = some sampleFull.nextAddr ∧
      c'.cacheMap.length = sampleFull.capacity.toNat ∧
      c'.cacheList.length = sampleFull.capacity.toNat :=
  put_full_evicts sampleFull 3 30
    (@cacheInv_reachable 2 [Op.put 1 10, Op.put 2 20] sampleFull rfl)
    (by decide) (by decide) rfl rfl

/-- Witness for the get-hit contract at the concrete full state (get 1 on
sampleFull returns 10 and moves node 0 to the front). -/
theorem get_hit_spec_witness :
    ∃ (nd : node) (l₁ l₂ : List Nat),
      alistLookup 0 sampleFull.heap = some nd ∧ nd.key = 1 ∧
      sampleFull.cacheList = l₁ ++ 0 :: l₂ ∧ 0 ∉ l₁ ∧ 0 ∉ l₂ ∧
      sampleFull.get 1 = some (nd.value, { sampleFull with cacheList := 0 :: (l₁ ++ l₂) }) ∧
      (0 :: (l₁ ++ l₂)).length = sampleFull.cacheList.length :=
  get_hit_spec sampleFull 1 0
    (@cacheInv_reachable 2 [Op.put 1 10, Op.put 2 20] sampleFull rfl) rfl

/-- Witness for the update-in-place contract at the concrete full state
(put 1 99 on sampleFull updates node 0 and evicts nothing). -/
theorem put_update_in_place_witness :
    ∃ (nd : node) (l₁ l₂ : List Nat),
      alistLookup 0 sampleFull.heap = some nd ∧ nd.key = 1 ∧
      sampleFull.cacheList = l₁ ++ 0 :: l₂ ∧ 0 ∉ l₁ ∧ 0 ∉ l₂ ∧
      sampleFull.put 1 99 = some { sampleFull with
        heap := alistInsert 0 { key := 1, value := 99 } sampleFull.heap,
        cacheList := 0 :: (l₁ ++ l₂) } ∧
      alistLookup 0 (alistInsert 0 { key := 1, value := 99 } sampleFull.heap) =
        some { key := 1, value := 99 } ∧
      alistKeys (alistInsert 0 { key := 1, value := 99 } sampleFull.heap) =
        alistKeys sampleFull.heap ∧
      (0 :: (l₁ ++ l₂)).length = sampleFull.cacheList.length :=
  put_update_in_place sampleFull 1 99 0
    (@cacheInv_reachable 2 [Op.put 1 10, Op.put 2 20] sampleFull rfl) rfl

/-- Witness for the recency law on the driver's scenario: after get(1) the
key 1 is more recent than key 2. -/
theorem recency_law_witness :
    (1 : Int) ∈ alistKeys sampleFront.cacheMap ∧ keyOrderBefore sampleFront 1 2 :=
  recency_law 2 1 2 (by decide) [Op.put 1 10, Op.put 2 20] [] (Op.get 1)
    sampleFull sampleFront sampleFront rfl rfl rfl (by decide)
    (fun op ho => absurd ho (List.not_mem_nil op)) rfl (by decide)
